import Mathlib

set_option linter.unusedSectionVars false

/-!
# Verification of the hrzn 2D grid library

A shallow embedding of the grid subsystem of the `hrzn` C++ library
(headers `include/htl/hrzn.h`, `include/htl/containers.h`,
`include/htl/utility.h`, `include/htl/basic_types.h`, and the earlier
revision `include/hrzn/hrzn.h`, `include/hrzn/utility.h`), together with
theorems settling the specified behavioral properties.

Machine integers: `hType_i` (`int`) is modelled as `Int`; `std::size_t`
is modelled as `Nat`; the 64-bit storage words of `HMask`
(`std::uint64_t`) are modelled as `Nat` with explicit `% 2^64` /
single-word bit operations where overflow or complement matters.
Fallible C++ operations (which `throw`) are modelled with
`Except String`.
-/

namespace Hrzn

/-- `hrzn::hArea` from `include/htl/hrzn.h`: four `hType_i` fields with
*inclusive* bounds (`contains` uses `x1 <= x && x <= x2`). The struct
`hrzn::Area` of `include/hrzn/hrzn.h` has the same four fields; its
differing constructor behaviour is modelled by `areaMk` below. -/
structure HArea where
  x1 : Int
  y1 : Int
  x2 : Int
  y2 : Int
  deriving DecidableEq, Repr

namespace HArea

/-- `hArea::contains(x, y)`: `x >= x1 && x <= x2 && y >= y1 && y <= y2`. -/
def containsP (a : HArea) (x y : Int) : Prop :=
  a.x1 ≤ x ∧ x ≤ a.x2 ∧ a.y1 ≤ y ∧ y ≤ a.y2

instance (a : HArea) (x y : Int) : Decidable (a.containsP x y) := by
  unfold containsP; infer_instance

/-- `hArea::width()`: `std::max(x2 - x1 + 1, 0)` returned as `std::size_t`. -/
def width (a : HArea) : Nat := (a.x2 - a.x1 + 1).toNat

/-- `hArea::height()`: `std::max(y2 - y1 + 1, 0)` returned as `std::size_t`. -/
def height (a : HArea) : Nat := (a.y2 - a.y1 + 1).toNat

/-- `hArea::area()`: `width() * height()`. -/
def area (a : HArea) : Nat := a.width * a.height

/-- `hArea::valid()`: `x1 <= x2 && y1 <= y2`. -/
def valid (a : HArea) : Prop := a.x1 ≤ a.x2 ∧ a.y1 ≤ a.y2

instance (a : HArea) : Decidable a.valid := by
  unfold valid; infer_instance

/-- `hArea::intersect(a, b)` from `include/htl/hrzn.h`: builds the area
directly from `max` of the minima and `min` of the maxima (the htl
4-argument `hArea` constructor stores its arguments unchanged). -/
def intersectH (a b : HArea) : HArea :=
  ⟨max a.x1 b.x1, max a.y1 b.y1, min a.x2 b.x2, min a.y2 b.y2⟩

/-- The 4-argument constructor `Area(x_1, y_1, x_2, y_2)` of
`hrzn::Area` from `include/hrzn/hrzn.h`, which *normalizes*:
`x1 = min(x_1, x_2); x2 = max(x_1, x_2)` and likewise for `y`. -/
def areaMk (xa ya xb yb : Int) : HArea :=
  ⟨min xa xb, min ya yb, max xa xb, max ya yb⟩

/-- `Area::intersect(a, b)` from `include/hrzn/hrzn.h`: the corner
candidates are passed through the normalizing `Area` constructor. -/
def intersectA (a b : HArea) : HArea :=
  areaMk (max a.x1 b.x1) (max a.y1 b.y1) (min a.x2 b.x2) (min a.y2 b.y2)

/-- `hArea::resize(x_1, y_1, x_2, y_2)` (same in both revisions):
normalizes the four arguments with `min`/`max`. -/
def resizeNorm (xa ya xb yb : Int) : HArea := areaMk xa ya xb yb

/-- The linear index `(x - x1) + (y - y1) * width()` computed by
`IMap::f_index` after the bounds check has passed. -/
def idx (a : HArea) (x y : Int) : Nat :=
  (x - a.x1).toNat + (y - a.y1).toNat * a.width

/-- `IMap<T>::f_index(x, y)` from `include/htl/hrzn.h`: bounds-checks
and either returns the linear index or throws
`std::out_of_range("Point not located in Matrix.")`. -/
def f_index (a : HArea) (x y : Int) : Except String Nat :=
  if a.containsP x y then .ok (a.idx x y)
  else .error "Point not located in Matrix."

theorem width_pos_of_le {a : HArea} (h : a.x1 ≤ a.x2) : 0 < a.width := by
  simp only [width]
  omega

theorem height_pos_of_le {a : HArea} (h : a.y1 ≤ a.y2) : 0 < a.height := by
  simp only [height]
  omega

theorem toNat_sub_lt_width {a : HArea} {x : Int} (h1 : a.x1 ≤ x) (h2 : x ≤ a.x2) :
    (x - a.x1).toNat < a.width := by
  simp only [width]; omega

theorem toNat_sub_lt_height {a : HArea} {y : Int} (h1 : a.y1 ≤ y) (h2 : y ≤ a.y2) :
    (y - a.y1).toNat < a.height := by
  simp only [height]; omega

/-- The linear index of an in-domain point is below `area()`. -/
theorem idx_lt_area {a : HArea} {x y : Int} (h : a.containsP x y) :
    a.idx x y < a.area := by
  obtain ⟨h1, h2, h3, h4⟩ := h
  have hx := toNat_sub_lt_width h1 h2
  have hy := toNat_sub_lt_height h3 h4
  have hw : 0 < a.width := by omega
  calc a.idx x y = (x - a.x1).toNat + (y - a.y1).toNat * a.width := rfl
    _ < a.width + (y - a.y1).toNat * a.width := by omega
    _ = ((y - a.y1).toNat + 1) * a.width := by ring
    _ ≤ a.height * a.width := Nat.mul_le_mul_right _ (by omega)
    _ = a.area := Nat.mul_comm _ _

/-- Uniqueness of the decomposition `X + Y * W` with `X < W`. -/
theorem index_unique {W X Y U V : Nat} (hX : X < W) (hU : U < W)
    (h : X + Y * W = U + V * W) : X = U ∧ Y = V := by
  have key : ∀ {X' Y' U' V' : Nat}, X' < W → X' + Y' * W = U' + V' * W →
      Y' < V' → False := by
    intro X' Y' U' V' hX' h' hlt
    have h1 : (Y' + 1) * W ≤ V' * W := Nat.mul_le_mul_right W (by omega)
    have h2 : (Y' + 1) * W = Y' * W + W := by ring
    omega
  have hyv : Y = V := by
    rcases Nat.lt_trichotomy Y V with hlt | heq | hgt
    · exact (key hX h hlt).elim
    · exact heq
    · exact (key hU h.symm hgt).elim
  subst hyv
  exact ⟨by omega, rfl⟩

/-- The coordinate-to-linear-index translation is injective on the
domain rectangle. -/
theorem idx_injective {a : HArea} {x y u v : Int}
    (h : a.containsP x y) (h' : a.containsP u v)
    (he : a.idx x y = a.idx u v) : x = u ∧ y = v := by
  obtain ⟨h1, h2, h3, h4⟩ := h
  obtain ⟨h5, h6, h7, h8⟩ := h'
  have hx := toNat_sub_lt_width h1 h2
  have hu := toNat_sub_lt_width h5 h6
  simp only [idx] at he
  obtain ⟨e1, e2⟩ := index_unique hx hu he
  constructor <;> omega

end HArea

/-- The row-major list of points `(x0 + c, y0 + r)` for `r < h` (outer
loop) and `c < w` (inner loop), mirroring the nested
`for (y ...) for (x ...)` loops of the C++ code. -/
def pointsGrid (x0 y0 : Int) (w h : Nat) : List (Int × Int) :=
  (List.range h).flatMap
    (fun (r : Nat) => (List.range w).map
      (fun (c : Nat) => (x0 + (c : Int), y0 + (r : Int))))

theorem mem_pointsGrid {x0 y0 : Int} {w h : Nat} {p : Int × Int} :
    p ∈ pointsGrid x0 y0 w h ↔
      x0 ≤ p.1 ∧ p.1 < x0 + w ∧ y0 ≤ p.2 ∧ p.2 < y0 + h := by
  constructor
  · intro hp
    rw [pointsGrid, List.mem_flatMap] at hp
    obtain ⟨r, hr, hp⟩ := hp
    rw [List.mem_map] at hp
    obtain ⟨c, hc, hpe⟩ := hp
    rw [List.mem_range] at hr hc
    cases hpe
    refine ⟨by omega, by omega, by omega, by omega⟩
  · intro hb
    obtain ⟨h1, h2, h3, h4⟩ := hb
    rw [pointsGrid, List.mem_flatMap]
    refine ⟨(p.2 - y0).toNat, by rw [List.mem_range]; omega, ?_⟩
    rw [List.mem_map]
    refine ⟨(p.1 - x0).toNat, by rw [List.mem_range]; omega, ?_⟩
    have e1 : x0 + (((p.1 - x0).toNat : Nat) : Int) = p.1 := by omega
    have e2 : y0 + (((p.2 - y0).toNat : Nat) : Int) = p.2 := by omega
    rw [e1, e2]

/-- The points visited by the *inclusive* nested loops
`for (y = y1; y <= y2; ++y) for (x = x1; x <= x2; ++x)` used by
`IMap::fill` and the boolean-map operators in `include/htl/hrzn.h`. -/
def inclusivePoints (a : HArea) : List (Int × Int) :=
  pointsGrid a.x1 a.y1 a.width a.height

/-- The points visited by the *exclusive* nested loops
`for (y = y1; y < y2; ++y) for (x = x1; x < x2; ++x)` of the
`HRZN_FOREACH_POINT` macro in `include/htl/utility.h`. -/
def exclusivePoints (a : HArea) : List (Int × Int) :=
  pointsGrid a.x1 a.y1 (a.x2 - a.x1).toNat (a.y2 - a.y1).toNat

theorem mem_inclusivePoints {a : HArea} {p : Int × Int} :
    p ∈ inclusivePoints a ↔ a.containsP p.1 p.2 := by
  rw [inclusivePoints, mem_pointsGrid]
  simp only [HArea.containsP, HArea.width, HArea.height]
  omega

theorem mem_exclusivePoints {a : HArea} {p : Int × Int} :
    p ∈ exclusivePoints a ↔
      a.x1 ≤ p.1 ∧ p.1 < a.x2 ∧ a.y1 ≤ p.2 ∧ p.2 < a.y2 := by
  rw [exclusivePoints, mem_pointsGrid]
  omega

theorem containsP_of_mem_exclusivePoints {a : HArea} {p : Int × Int}
    (h : p ∈ exclusivePoints a) : a.containsP p.1 p.2 := by
  rw [mem_exclusivePoints] at h
  exact ⟨by omega, by omega, by omega, by omega⟩

/-! ## Dense grid container

`HMap<T>` from `include/htl/hrzn.h`: an `hArea` plus a contiguous
backing array of `area()` elements, indexed through `f_index`. -/

/-- `hrzn::HMap<T>`: the inherited `hArea` plus the `m_contents`
backing array (`new T[area()]`). -/
structure HMap (T : Type) where
  area : HArea
  contents : List T
  deriving DecidableEq, Repr

namespace HMap

variable {T : Type} [Inhabited T]

/-- `HMap<T>::at(x, y) const`: `m_contents[f_index(x, y)]`; `f_index`
throws `std::out_of_range` for coordinates outside the domain. -/
def at' (m : HMap T) (x y : Int) : Except String T :=
  (m.area.f_index x y).map (fun i => m.contents.getD i default)

/-- `HMap<T>::set(x, y, val)`: `m_contents[f_index(x, y)] = val`; the
write happens only if the bounds check in `f_index` passes. -/
def set (m : HMap T) (x y : Int) (v : T) : Except String (HMap T) :=
  (m.area.f_index x y).map (fun i => { m with contents := m.contents.set i v })

/-- `set` with the failure case discarding the write, as the C++ does
operationally (the exception propagates before any store happens and
the grid is left untouched). -/
def setT (m : HMap T) (x y : Int) (v : T) : HMap T :=
  match m.set x y v with
  | .ok m' => m'
  | .error _ => m

/-- `at` totalized with the backing array's default value; used to
embed call sites that the surrounding checks keep in-domain (where the
C++ `at` cannot throw). -/
def atT (m : HMap T) (x y : Int) : T :=
  match m.at' x y with
  | .ok v => v
  | .error _ => default

theorem setT_of_contains {m : HMap T} {x y : Int} (v : T)
    (h : m.area.containsP x y) :
    m.setT x y v = { m with contents := m.contents.set (m.area.idx x y) v } := by
  simp [setT, set, HArea.f_index, h, Except.map]

theorem setT_of_not_contains {m : HMap T} {x y : Int} (v : T)
    (h : ¬m.area.containsP x y) : m.setT x y v = m := by
  simp [setT, set, HArea.f_index, h, Except.map]

theorem setT_area (m : HMap T) (x y : Int) (v : T) :
    (m.setT x y v).area = m.area := by
  by_cases h : m.area.containsP x y
  · rw [setT_of_contains v h]
  · rw [setT_of_not_contains v h]

theorem setT_length (m : HMap T) (x y : Int) (v : T) :
    (m.setT x y v).contents.length = m.contents.length := by
  by_cases h : m.area.containsP x y
  · rw [setT_of_contains v h]
    exact m.contents.length_set _ _
  · rw [setT_of_not_contains v h]

theorem at'_of_contains {m : HMap T} {x y : Int}
    (h : m.area.containsP x y) :
    m.at' x y = .ok (m.contents.getD (m.area.idx x y) default) := by
  simp [at', HArea.f_index, h, Except.map]

theorem at'_of_not_contains {m : HMap T} {x y : Int}
    (h : ¬m.area.containsP x y) :
    m.at' x y = .error "Point not located in Matrix." := by
  simp [at', HArea.f_index, h, Except.map]

/-- Writing a list of (point, value) pairs where the value is a
function of the point alone: the state after a nested set-loop, used to
characterize `fill`, the boolean-map operators and both passes of
`cellularAutomata`. -/
def writeAll (m : HMap T) (pts : List (Int × Int)) (F : Int × Int → T) : HMap T :=
  pts.foldl (fun g p => g.setT p.1 p.2 (F p)) m

theorem writeAll_area (m : HMap T) (pts : List (Int × Int)) (F : Int × Int → T) :
    (m.writeAll pts F).area = m.area := by
  induction pts generalizing m with
  | nil => rfl
  | cons q rest ih =>
      rw [writeAll, List.foldl_cons, ← writeAll, ih, setT_area]

theorem writeAll_length (m : HMap T) (pts : List (Int × Int)) (F : Int × Int → T) :
    (m.writeAll pts F).contents.length = m.contents.length := by
  induction pts generalizing m with
  | nil => rfl
  | cons q rest ih =>
      rw [writeAll, List.foldl_cons, ← writeAll, ih, setT_length]

/-- A small list fact: `getD` after `set` at the same position. -/
theorem getD_set_self {l : List T} {i : Nat} (v d : T) (h : i < l.length) :
    (l.set i v).getD i d = v := by
  rw [List.getD_eq_getElem?_getD, List.getElem?_set_self (by omega)]
  rfl

/-- A small list fact: `getD` after `set` at a different position. -/
theorem getD_set_ne {l : List T} {i j : Nat} (v d : T) (h : i ≠ j) :
    (l.set i v).getD j d = l.getD j d := by
  rw [List.getD_eq_getElem?_getD, List.getElem?_set_ne h,
    ← List.getD_eq_getElem?_getD]

/-- The value stored at an in-domain point after a nested set-loop whose
written value depends only on the point: the point's own value if it was
visited, the prior value otherwise.  Duplicates in the visit list are
harmless because every write to a given cell stores the same value. -/
theorem writeAll_getD (m : HMap T) (pts : List (Int × Int))
    (F : Int × Int → T) (d : T)
    (hpts : ∀ q ∈ pts, m.area.containsP q.1 q.2)
    (hlen : m.contents.length = m.area.area)
    (p : Int × Int) (hp : m.area.containsP p.1 p.2) :
    (m.writeAll pts F).contents.getD (m.area.idx p.1 p.2) d =
      if p ∈ pts then F p else m.contents.getD (m.area.idx p.1 p.2) d := by
  induction pts generalizing m with
  | nil => simp [writeAll]
  | cons q rest ih =>
      have hq : m.area.containsP q.1 q.2 := hpts q (List.mem_cons_self q rest)
      have hstep := setT_of_contains (m := m) (x := q.1) (y := q.2) (F q) hq
      have harea : (m.setT q.1 q.2 (F q)).area = m.area := setT_area m q.1 q.2 (F q)
      have hlen' : (m.setT q.1 q.2 (F q)).contents.length = (m.setT q.1 q.2 (F q)).area.area := by
        rw [setT_length, harea, hlen]
      have hrest : ∀ r ∈ rest, (m.setT q.1 q.2 (F q)).area.containsP r.1 r.2 := by
        intro r hr
        rw [harea]
        exact hpts r (List.mem_cons_of_mem q hr)
      have hp' : (m.setT q.1 q.2 (F q)).area.containsP p.1 p.2 := by
        rw [harea]; exact hp
      rw [writeAll, List.foldl_cons, ← writeAll]
      have := ih (m.setT q.1 q.2 (F q)) hrest hlen' hp'
      rw [harea] at this
      rw [this]
      by_cases hmem : p ∈ rest
      · rw [if_pos hmem, if_pos (List.mem_cons_of_mem q hmem)]
      · rw [if_neg hmem]
        by_cases hpq : p = q
        · subst hpq
          rw [if_pos (List.mem_cons_self p rest), hstep]
          exact getD_set_self _ _ (by rw [hlen]; exact HArea.idx_lt_area hp)
        · have hnc : p ∉ q :: rest := by
            intro hc
            rcases List.mem_cons.mp hc with h1 | h2
            · exact hpq h1
            · exact hmem h2
          rw [if_neg hnc, hstep]
          refine getD_set_ne _ _ (fun he => hpq ?_)
          obtain ⟨e1, e2⟩ := HArea.idx_injective hq hp he
          exact Prod.ext e1.symm e2.symm

/-- `IMap<T>::fill(obj)` (inherited by `HMap<T>`): the nested inclusive
loops `for (y = y1; y <= y2; ++y) for (x = x1; x <= x2; ++x) set(x, y, obj)`. -/
def fill (m : HMap T) (v : T) : HMap T :=
  m.writeAll (inclusivePoints m.area) (fun _ => v)

theorem fill_at' {m : HMap T} (v : T)
    (hlen : m.contents.length = m.area.area)
    {x y : Int} (hc : m.area.containsP x y) :
    (m.fill v).at' x y = .ok v := by
  have harea : (m.fill v).area = m.area :=
    writeAll_area m (inclusivePoints m.area) (fun _ => v)
  have hc' : (m.fill v).area.containsP x y := by rw [harea]; exact hc
  rw [at'_of_contains hc', harea, fill]
  have hkey := writeAll_getD m (inclusivePoints m.area) (fun _ => v) default
    (fun q hq => mem_inclusivePoints.mp hq) hlen (x, y) hc
  rw [if_pos (mem_inclusivePoints.mpr hc)] at hkey
  exact congrArg Except.ok hkey

end HMap

/-! ## Bit-packed boolean grid

`hrzn::HMask` from `include/htl/hrzn.h`: an `hArea` plus an array of
64-bit words (`block_type = std::uint64_t`), `m_size = area()/64 + 1`
words, one bit per cell, plus the `m_dummy` scratch `bool` returned by
the mutable `at`. -/

/-- `s_bit_interval = sizeof(block_type) * CHAR_BIT = 64`. -/
def bitInterval : Nat := 64

/-- `~block_type()`: the all-ones 64-bit word. -/
def wordOnes : Nat := 2 ^ 64 - 1

/-- Bitwise complement `~v` on a 64-bit word. -/
def compl64 (v : Nat) : Nat := v ^^^ wordOnes

/-- The word update `(word & ~offset) | (offset * val)` performed by
`HMask::set`, with `offset = 1ULL << k`. -/
def setWord (old k : Nat) (bv : Bool) : Nat :=
  (old &&& compl64 (2 ^ k)) ||| 2 ^ k * (if bv then 1 else 0)

instance {ε α : Type} [DecidableEq ε] [DecidableEq α] :
    DecidableEq (Except ε α) := fun a b =>
  match a, b with
  | .ok u, .ok v =>
      if h : u = v then .isTrue (by rw [h])
      else .isFalse (fun hc => h (Except.ok.inj hc))
  | .error e, .error f =>
      if h : e = f then .isTrue (by rw [h])
      else .isFalse (fun hc => h (Except.error.inj hc))
  | .ok _, .error _ => .isFalse (fun hc => Except.noConfusion hc)
  | .error _, .ok _ => .isFalse (fun hc => Except.noConfusion hc)

structure HMask where
  area : HArea
  msize : Nat
  blocks : List Nat
  dummy : Bool
  deriving DecidableEq, Repr

namespace HMask

/-- The `HMask(hArea)` constructor: `m_size = area()/64 + 1` words, all
zero-initialized, `m_dummy = false`. -/
def ofArea (a : HArea) : HMask :=
  { area := a
    msize := a.area / bitInterval + 1
    blocks := List.replicate (a.area / bitInterval + 1) 0
    dummy := false }

/-- `HMask::set(x, y, val)`:
`index = f_index(x, y); block_id = index / 64; offset = 1 << (index % 64);`
`m_blocks[block_id] = (m_blocks[block_id] & ~offset) | (offset * val)`. -/
def set (m : HMask) (x y : Int) (v : Bool) : Except String HMask :=
  (m.area.f_index x y).map (fun index =>
    let block_id := index / bitInterval
    let word := setWord (m.blocks.getD block_id 0) (index % bitInterval) v
    { m with blocks := m.blocks.set block_id word })

/-- `set` totalized (the concrete call sites proved about are
in-domain, where the C++ `set` cannot throw). -/
def setT (m : HMask) (x y : Int) (v : Bool) : HMask :=
  match m.set x y v with
  | .ok m' => m'
  | .error _ => m

/-- `HMask::f_get(x, y)`:
`(m_blocks[block_id] & offset) == offset` after an `f_index` bounds
check; this is also `HMask::at(x, y) const`. -/
def f_get (m : HMask) (x y : Int) : Except String Bool :=
  (m.area.f_index x y).map (fun index =>
    let block_id := index / bitInterval
    let offset := 2 ^ (index % bitInterval)
    decide (m.blocks.getD block_id 0 &&& offset = offset))

/-- `f_get` totalized with `false` for use at call sites kept in-domain
by the surrounding checks. -/
def atT (m : HMask) (x y : Int) : Bool :=
  match m.f_get x y with
  | .ok v => v
  | .error _ => false

/-- `HMask::fill(obj)`: `block_type v = ~block_type() * obj;` then every
word of `m_blocks` is assigned `v` — an O(words) broadcast. -/
def fill (m : HMask) (v : Bool) : HMask :=
  { m with blocks := m.blocks.map (fun _ => wordOnes * (if v then 1 else 0)) }

/-- `HMask::at(int, int)` (the mutable overload): stores `f_get(x, y)`
into the scratch member `m_dummy` and returns a reference to `m_dummy`,
not to backing storage. -/
def atRef (m : HMask) (x y : Int) : Except String HMask :=
  (m.f_get x y).map (fun v => { m with dummy := v })

/-- Assigning through the `bool&` returned by the mutable `at`: the
write lands in the `m_dummy` field. -/
def assignRef (m : HMask) (b : Bool) : HMask := { m with dummy := b }

end HMask

/-! ### Single-word bit lemmas -/

theorem land_two_pow_eq_iff {n k : Nat} :
    n &&& 2 ^ k = 2 ^ k ↔ n.testBit k = true := by
  constructor
  · intro h
    have := congrArg (fun z => Nat.testBit z k) h
    simpa [Nat.testBit_land, Nat.testBit_two_pow_self] using this
  · intro h
    apply Nat.eq_of_testBit_eq
    intro i
    rw [Nat.testBit_land]
    by_cases hik : i = k
    · subst hik
      simp [h]
    · have hz : Nat.testBit (2 ^ k) i = false := by
        rw [Nat.testBit_two_pow]
        exact decide_eq_false (Ne.symm hik)
      simp [hz]

theorem wordOnes_testBit {k : Nat} (h : k < 64) : wordOnes.testBit k = true := by
  rw [wordOnes, Nat.testBit_two_pow_sub_one]
  simp [h]

theorem zero_land_two_pow_ne (k : Nat) : ¬((0 : Nat) &&& 2 ^ k = 2 ^ k) := by
  rw [Nat.zero_and]
  intro h
  have hpos : 0 < 2 ^ k := by positivity
  omega

theorem getD_map_const {α β : Type} (l : List α) (c d : β) {i : Nat}
    (h : i < l.length) : (l.map (fun _ => c)).getD i d = c := by
  rw [List.getD_eq_getElem?_getD, List.getElem?_map, List.getElem?_eq_getElem h]
  rfl

namespace HMask

theorem block_id_lt {m : HMask} {index : Nat}
    (hlen : m.blocks.length = m.msize)
    (hsz : m.msize = m.area.area / bitInterval + 1)
    (hidx : index < m.area.area) : index / bitInterval < m.blocks.length := by
  have h1 : index / bitInterval ≤ m.area.area / bitInterval :=
    Nat.div_le_div_right (Nat.le_of_lt hidx)
  omega

/-- Reading any in-domain cell of a broadcast-filled mask yields the
fill value: an all-ones word answers `true` at every bit, the zero word
answers `false`. -/
theorem f_get_fill (m : HMask) (b : Bool)
    (hlen : m.blocks.length = m.msize)
    (hsz : m.msize = m.area.area / bitInterval + 1)
    {x y : Int} (hc : m.area.containsP x y) :
    (m.fill b).f_get x y = .ok b := by
  have hidx := HArea.idx_lt_area hc
  have hblk : m.area.idx x y / bitInterval < m.blocks.length :=
    block_id_lt hlen hsz hidx
  have hmod : m.area.idx x y % bitInterval < 64 :=
    Nat.mod_lt _ (by decide)
  show (m.area.f_index x y).map _ = .ok b
  rw [HArea.f_index, if_pos hc]
  simp only [Except.map]
  refine congrArg Except.ok ?_
  cases b
  · show decide ((m.blocks.map (fun _ => wordOnes * 0)).getD
        (m.area.idx x y / bitInterval) 0 &&&
        2 ^ (m.area.idx x y % bitInterval) =
        2 ^ (m.area.idx x y % bitInterval)) = false
    apply decide_eq_false
    rw [getD_map_const _ _ _ hblk, Nat.mul_zero]
    exact zero_land_two_pow_ne _
  · show decide ((m.blocks.map (fun _ => wordOnes * 1)).getD
        (m.area.idx x y / bitInterval) 0 &&&
        2 ^ (m.area.idx x y % bitInterval) =
        2 ^ (m.area.idx x y % bitInterval)) = true
    apply decide_eq_true
    rw [getD_map_const _ _ _ hblk, Nat.mul_one]
    exact land_two_pow_eq_iff.mpr (wordOnes_testBit hmod)

end HMask

/-! ## Claim C3: bounds-checked access -/

/-- C3: for every grid and all integer coordinates, `at` and `set`
raise the distinct out-of-range error "Point not located in Matrix."
exactly when the coordinate lies outside the domain rectangle; an
in-domain access never raises; and a failing `set` leaves the stored
cells unchanged. -/
theorem c3_out_of_range_access {T : Type} [Inhabited T]
    (m : HMap T) (x y : Int) (v : T) :
    (m.area.containsP x y →
      (∃ t, m.at' x y = .ok t) ∧ (∃ m', m.set x y v = .ok m')) ∧
    (¬m.area.containsP x y →
      m.at' x y = .error "Point not located in Matrix." ∧
      m.set x y v = .error "Point not located in Matrix." ∧
      m.setT x y v = m) := by
  constructor
  · intro hc
    refine ⟨⟨_, HMap.at'_of_contains hc⟩,
      ⟨{ m with contents := m.contents.set (m.area.idx x y) v }, ?_⟩⟩
    simp [HMap.set, HArea.f_index, hc, Except.map]
  · intro hc
    refine ⟨HMap.at'_of_not_contains hc, ?_, HMap.setT_of_not_contains v hc⟩
    simp [HMap.set, HArea.f_index, hc, Except.map]

/-- Witness for C3 at a concrete grid and an out-of-domain coordinate. -/
theorem c3_out_of_range_access_witness :
    ¬(HArea.mk 0 0 1 1).containsP 2 0 ∧
    (HMap.mk ⟨0, 0, 1, 1⟩ [10, 20, 30, 40] : HMap Int).at' 2 0 =
      .error "Point not located in Matrix." ∧
    (HMap.mk ⟨0, 0, 1, 1⟩ [10, 20, 30, 40] : HMap Int).setT 2 0 7 =
      HMap.mk ⟨0, 0, 1, 1⟩ [10, 20, 30, 40] := by
  have h := (c3_out_of_range_access
    (HMap.mk ⟨0, 0, 1, 1⟩ [10, 20, 30, 40] : HMap Int) 2 0 7).2 (by decide)
  exact ⟨by decide, h.1, h.2.2⟩

/-! ## Claim C4: fill round-trip -/

/-- C4: after `G.fill(v)`, `G.at(x, y) == v` for every in-domain
coordinate, both for the dense grid (cell-by-cell loop) and for the
bit-packed boolean grid, whose `fill` broadcasts an all-ones or
all-zeros word across every storage word. -/
theorem c4_fill_roundtrip {T : Type} [Inhabited T] (m : HMap T) (v : T)
    (k : HMask) (b : Bool)
    (hlen : m.contents.length = m.area.area)
    (hkb : k.blocks.length = k.msize)
    (hks : k.msize = k.area.area / bitInterval + 1)
    (x y u w : Int)
    (h1 : m.area.containsP x y) (h2 : k.area.containsP u w) :
    (m.fill v).at' x y = .ok v ∧ (k.fill b).f_get u w = .ok b :=
  ⟨HMap.fill_at' v hlen h1, HMask.f_get_fill k b hkb hks h2⟩

/-- Witness for C4 on a concrete 2×2 dense grid and a concrete 2×2
bit-packed mask. -/
theorem c4_fill_roundtrip_witness :
    ((HMap.mk ⟨0, 0, 1, 1⟩ [0, 0, 0, 0] : HMap Int).fill 7).at' 1 0 = .ok 7 ∧
    ((HMask.ofArea ⟨0, 0, 1, 1⟩).fill true).f_get 0 1 = .ok true :=
  c4_fill_roundtrip (HMap.mk ⟨0, 0, 1, 1⟩ [0, 0, 0, 0] : HMap Int) 7
    (HMask.ofArea ⟨0, 0, 1, 1⟩) true (by decide) (by decide) (by decide)
    1 0 0 1 (by decide) (by decide)

/-! ## Claim C5: resize is reallocate-and-migrate -/

namespace HMap

variable {T : Type} [Inhabited T]

theorem atT_of_contains {m : HMap T} {x y : Int}
    (h : m.area.containsP x y) :
    m.atT x y = m.contents.getD (m.area.idx x y) default := by
  rw [atT, at'_of_contains h]

/-- The migration loop of `HMap<T>::resize(xa, ya, xb, yb, fill_obj)`:
`new_block = new T[new_rect.area()]`, then for every cell of
`new_rect` (inclusive nested loops) store the old cell's value if the
old `hArea` contains the coordinate, else `fill_obj`, at linear index
`(x - new_rect.x1) + (y - new_rect.y1) * new_rect.width()`. -/
def resizeBody (m : HMap T) (nr : HArea) (f : T) : HMap T :=
  (HMap.mk nr (List.replicate nr.area default)).writeAll (inclusivePoints nr)
    (fun p => if m.area.containsP p.1 p.2 then m.atT p.1 p.2 else f)

/-- `HMap<T>::resize(xa, ya, xb, yb, fill_obj)`: migrate storage into
an array laid out for `new_rect = hArea(xa, ya, xb, yb)` and then set
the domain with the normalizing `hArea::resize`. -/
def resize (m : HMap T) (xa ya xb yb : Int) (f : T) : HMap T :=
  { area := HArea.resizeNorm xa ya xb yb
    contents := (m.resizeBody ⟨xa, ya, xb, yb⟩ f).contents }

end HMap

/-- C5: resizing a dense grid to a new rectangle with a fill value
keeps every cell in the overlap of the old and new rectangles at its
old value, sets every cell new to the rectangle to the fill value, and
makes the new rectangle the grid's domain. -/
theorem c5_resize_migrate {T : Type} [Inhabited T] (m : HMap T)
    (xa ya xb yb : Int) (f : T)
    (hlen : m.contents.length = m.area.area)
    (hx : xa ≤ xb) (hy : ya ≤ yb) :
    (m.resize xa ya xb yb f).area = HArea.mk xa ya xb yb ∧
    (∀ x y : Int, (HArea.mk xa ya xb yb).containsP x y →
      m.area.containsP x y →
      (m.resize xa ya xb yb f).at' x y = m.at' x y) ∧
    (∀ x y : Int, (HArea.mk xa ya xb yb).containsP x y →
      ¬m.area.containsP x y →
      (m.resize xa ya xb yb f).at' x y = .ok f) := by
  have hnr : HArea.resizeNorm xa ya xb yb = HArea.mk xa ya xb yb := by
    simp [HArea.resizeNorm, HArea.areaMk, min_eq_left hx, min_eq_left hy,
      max_eq_right hx, max_eq_right hy]
  have harea : (m.resize xa ya xb yb f).area = HArea.mk xa ya xb yb := hnr
  have hval : ∀ x y : Int, (HArea.mk xa ya xb yb).containsP x y →
      (m.resize xa ya xb yb f).at' x y =
        .ok (if m.area.containsP x y then m.atT x y else f) := by
    intro x y hc
    have hc2 : (m.resize xa ya xb yb f).area.containsP x y := by
      rw [harea]; exact hc
    rw [HMap.at'_of_contains hc2, harea]
    have hkey := HMap.writeAll_getD
      (HMap.mk (HArea.mk xa ya xb yb)
        (List.replicate (HArea.mk xa ya xb yb).area default))
      (inclusivePoints (HArea.mk xa ya xb yb))
      (fun p => if m.area.containsP p.1 p.2 then m.atT p.1 p.2 else f)
      default (fun q hq => mem_inclusivePoints.mp hq) (by simp) (x, y) hc
    rw [if_pos (mem_inclusivePoints.mpr hc)] at hkey
    exact congrArg Except.ok hkey
  refine ⟨harea, ?_, ?_⟩
  · intro x y hc hold
    rw [hval x y hc, if_pos hold, HMap.at'_of_contains hold,
      HMap.atT_of_contains hold]
  · intro x y hc hold
    rw [hval x y hc, if_neg hold]

/-- Witness for C5: a 2×2 grid holding 1..4 on `(0..1)²`, resized to
the rectangle `(1..2)²` with fill value 9: the overlap cell `(1,1)`
keeps its value 4, the new cell `(2,2)` reads 9, and the domain becomes
the new rectangle. -/
theorem c5_resize_migrate_witness :
    ((HMap.mk ⟨0, 0, 1, 1⟩ [1, 2, 3, 4] : HMap Int).resize 1 1 2 2 9).area =
      HArea.mk 1 1 2 2 ∧
    ((HMap.mk ⟨0, 0, 1, 1⟩ [1, 2, 3, 4] : HMap Int).resize 1 1 2 2 9).at' 1 1 =
      (HMap.mk ⟨0, 0, 1, 1⟩ [1, 2, 3, 4] : HMap Int).at' 1 1 ∧
    ((HMap.mk ⟨0, 0, 1, 1⟩ [1, 2, 3, 4] : HMap Int).resize 1 1 2 2 9).at' 2 2 =
      .ok 9 := by
  have h := c5_resize_migrate (HMap.mk ⟨0, 0, 1, 1⟩ [1, 2, 3, 4] : HMap Int)
    1 1 2 2 9 (by decide) (by decide) (by decide)
  exact ⟨h.1, h.2.1 1 1 (by decide) (by decide), h.2.2 2 2 (by decide) (by decide)⟩

/-! ## Claim C6: row-major iteration

`hArea_iterable::iterator` from `include/htl/hrzn.h`: holds
`std::size_t m_i` and the constants `m_w` (the area's `width()`),
`m_x`, `m_y` (the area's `x1`, `y1`), and derives the inherited
`hPoint` as `x = m_x + m_i % m_w; y = m_y + m_i / m_w`. -/

structure AreaIterator where
  x : Int
  y : Int
  m_i : Nat
  m_w : Nat
  m_x : Int
  m_y : Int
  deriving DecidableEq, Repr

namespace AreaIterator

/-- The iterator constructor `iterator(i, w, x, y)`: stores the fields
and computes `hPoint::x = m_x + m_i % m_w`, `hPoint::y = m_y + m_i / m_w`
(the `w` argument is always the area's `width()`, a non-negative value,
so modelling it as `Nat` is exact). -/
def make (i w : Nat) (x0 y0 : Int) : AreaIterator :=
  { x := x0 + ((i % w : Nat) : Int)
    y := y0 + ((i / w : Nat) : Int)
    m_i := i
    m_w := w
    m_x := x0
    m_y := y0 }

/-- Prefix `operator++`: `m_i++` and recompute the point from the
formula. -/
def inc (it : AreaIterator) : AreaIterator :=
  { it with
    m_i := it.m_i + 1
    x := it.m_x + (((it.m_i + 1) % it.m_w : Nat) : Int)
    y := it.m_y + (((it.m_i + 1) / it.m_w : Nat) : Int) }

/-- `operator==` on iterators compares only `m_i`. -/
def iterEq (i j : AreaIterator) : Bool := i.m_i == j.m_i

end AreaIterator

/-- `hArea_iterable::begin()`: `iterator(0, width(), x1, y1)`. -/
def ibegin (a : HArea) : AreaIterator := .make 0 a.width a.x1 a.y1

/-- `hArea_iterable::end()`: `iterator(area(), width(), x1, y1)`. -/
def iend (a : HArea) : AreaIterator := .make a.area a.width a.x1 a.y1

theorem iterate_inc (a : HArea) (n : Nat) :
    AreaIterator.inc^[n] (ibegin a) = AreaIterator.make n a.width a.x1 a.y1 := by
  induction n with
  | zero => rfl
  | succ k ih => rw [Function.iterate_succ_apply', ih]; rfl

/-- C6: for a domain with positive width and height, forward iteration
from `begin()` reaches `end()` after exactly `W*H` increments, the
point visited at step `n` is `(x1 + n % W, y1 + n / W)` (row-major),
no position repeats, and every in-domain position is visited. -/
theorem c6_row_major_iteration (a : HArea) (hx : a.x1 ≤ a.x2) (hy : a.y1 ≤ a.y2) :
    (∀ n : Nat,
      (AreaIterator.iterEq (AreaIterator.inc^[n] (ibegin a)) (iend a) = true) ↔
        n = a.area) ∧
    (∀ n : Nat, n < a.area →
      (AreaIterator.inc^[n] (ibegin a)).x = a.x1 + ((n % a.width : Nat) : Int) ∧
      (AreaIterator.inc^[n] (ibegin a)).y = a.y1 + ((n / a.width : Nat) : Int)) ∧
    (∀ i j : Nat, i < a.area → j < a.area →
      (AreaIterator.inc^[i] (ibegin a)).x = (AreaIterator.inc^[j] (ibegin a)).x →
      (AreaIterator.inc^[i] (ibegin a)).y = (AreaIterator.inc^[j] (ibegin a)).y →
      i = j) ∧
    (∀ x y : Int, a.containsP x y → ∃ n : Nat, n < a.area ∧
      (AreaIterator.inc^[n] (ibegin a)).x = x ∧
      (AreaIterator.inc^[n] (ibegin a)).y = y) := by
  have hw : 0 < a.width := HArea.width_pos_of_le hx
  refine ⟨?_, ?_, ?_, ?_⟩
  · intro n
    rw [iterate_inc]
    show (n == a.area) = true ↔ n = a.area
    exact beq_iff_eq
  · intro n hn
    rw [iterate_inc]
    exact ⟨rfl, rfl⟩
  · intro i j hi hj hxe hye
    rw [iterate_inc, iterate_inc] at hxe hye
    have hmod : i % a.width = j % a.width := by
      have : ((i % a.width : Nat) : Int) = ((j % a.width : Nat) : Int) := by
        have := hxe
        simp only [AreaIterator.make] at this
        omega
      exact_mod_cast this
    have hdiv : i / a.width = j / a.width := by
      have : ((i / a.width : Nat) : Int) = ((j / a.width : Nat) : Int) := by
        have := hye
        simp only [AreaIterator.make] at this
        omega
      exact_mod_cast this
    calc i = a.width * (i / a.width) + i % a.width := (Nat.div_add_mod i a.width).symm
      _ = a.width * (j / a.width) + j % a.width := by rw [hmod, hdiv]
      _ = j := Nat.div_add_mod j a.width
  · intro x y hc
    obtain ⟨h1, h2, h3, h4⟩ := hc
    refine ⟨a.idx x y, HArea.idx_lt_area ⟨h1, h2, h3, h4⟩, ?_, ?_⟩
    · rw [iterate_inc]
      show a.x1 + ((a.idx x y % a.width : Nat) : Int) = x
      rw [HArea.idx, Nat.add_mul_mod_self_right,
        Nat.mod_eq_of_lt (HArea.toNat_sub_lt_width h1 h2)]
      omega
    · rw [iterate_inc]
      show a.y1 + ((a.idx x y / a.width : Nat) : Int) = y
      rw [HArea.idx, Nat.add_mul_div_right _ _ hw,
        Nat.div_eq_of_lt (HArea.toNat_sub_lt_width h1 h2)]
      omega

/-- Witness for C6 on the 3×2 area (0..2)×(0..1): step 4 visits
`(1, 1)`. -/
theorem c6_row_major_iteration_witness :
    (AreaIterator.inc^[4] (ibegin ⟨0, 0, 2, 1⟩)).x = 1 ∧
    (AreaIterator.inc^[4] (ibegin ⟨0, 0, 2, 1⟩)).y = 1 := by
  have h := (c6_row_major_iteration ⟨0, 0, 2, 1⟩ (by decide) (by decide)).2.1
    4 (by decide)
  exact ⟨h.1.trans (by decide), h.2.trans (by decide)⟩

/-! ## Claim C8: rectangle intersection in `include/hrzn/hrzn.h`

`Area::intersect` passes `max` of the minima and `min` of the maxima
through the 4-argument `Area` constructor — which *normalizes* by
swapping each axis's bounds into order, so a disjoint intersection does
not stay inverted/empty. -/

/-- C8 counterexample: for the disjoint rectangles (0..1)² and (5..6)²,
the claim says the result has its minimum corner at the componentwise
maximum of the minima, `(5,5)`, exceeds its maximum corner `(1,1)`, and
is an invalid, zero-area rectangle.  The normalizing constructor instead
swaps the bounds, producing the *valid* rectangle (1..5)² of area 25. -/
theorem c8_intersect_counterexample :
    HArea.intersectA ⟨0, 0, 1, 1⟩ ⟨5, 5, 6, 6⟩ = HArea.mk 1 1 5 5 ∧
    (HArea.intersectA ⟨0, 0, 1, 1⟩ ⟨5, 5, 6, 6⟩).area = 25 ∧
    (HArea.intersectA ⟨0, 0, 1, 1⟩ ⟨5, 5, 6, 6⟩).valid := by
  refine ⟨by decide, by decide, by decide⟩

/-- C8 amended: when the computed minimum corner is componentwise at
most the computed maximum corner (overlapping inputs),
`Area::intersect` returns exactly `max(a.min,b.min) .. min(a.max,b.max)`;
and for *all* inputs the normalizing constructor leaves the result a
valid rectangle of area at least 1 — never the invalid empty-domain
rectangle the claim describes. -/
theorem c8_intersect_amended (a b : HArea)
    (hx : max a.x1 b.x1 ≤ min a.x2 b.x2)
    (hy : max a.y1 b.y1 ≤ min a.y2 b.y2) :
    HArea.intersectA a b =
      HArea.mk (max a.x1 b.x1) (max a.y1 b.y1) (min a.x2 b.x2) (min a.y2 b.y2) ∧
    (∀ c d : HArea, (HArea.intersectA c d).valid ∧
      1 ≤ (HArea.intersectA c d).area) := by
  constructor
  · simp [HArea.intersectA, HArea.areaMk, min_eq_left hx, min_eq_left hy,
      max_eq_right hx, max_eq_right hy]
  · intro c d
    have hv : (HArea.intersectA c d).valid := ⟨min_le_max, min_le_max⟩
    refine ⟨hv, ?_⟩
    have hw : 0 < (HArea.intersectA c d).width := HArea.width_pos_of_le hv.1
    have hh : 0 < (HArea.intersectA c d).height := HArea.height_pos_of_le hv.2
    exact Nat.mul_pos hw hh

/-- Witness for C8 amended, on the overlapping rectangles (0..3)² and
(1..5)². -/
theorem c8_intersect_amended_witness :
    HArea.intersectA ⟨0, 0, 3, 3⟩ ⟨1, 1, 5, 5⟩ = HArea.mk 1 1 3 3 ∧
    (HArea.intersectA ⟨7, 7, 9, 9⟩ ⟨0, 0, 1, 1⟩).valid := by
  have h := c8_intersect_amended ⟨0, 0, 3, 3⟩ ⟨1, 1, 5, 5⟩ (by decide) (by decide)
  exact ⟨h.1.trans (by decide), (h.2 ⟨7, 7, 9, 9⟩ ⟨0, 0, 1, 1⟩).1⟩

/-! ## Claim C1: the boolean-grid `operator^` -/

/-- `operator^(const IMap<bool>& a, const IMap<bool>& b)` from
`include/htl/hrzn.h` (identical body in `include/hrzn/hrzn.h` and, with
exclusive loops, `include/htl/containers.h`): an `HMask` over
`hArea::intersect(a, b)`, filled by the inclusive nested loops with
`a.at(x, y) && b.at(x, y)` — the body computes AND although the
comment above it announces the bitwise XOR operation. -/
def opXor (a b : HMap Bool) : HMask :=
  (inclusivePoints (HArea.intersectH a.area b.area)).foldl
    (fun r p => r.setT p.1 p.2 (a.atT p.1 p.2 && b.atT p.1 p.2))
    (HMask.ofArea (HArea.intersectH a.area b.area))

/-- C1, evaluated at the failing input: two 1×1 grids with
`A.at(0,0) = true` and `B.at(0,0) = false`.  The exclusive-or is
`true`, but the result grid holds `false` (the loop body computes
`a.at && b.at`).  The domain part of the claim (intersection) does
hold. -/
theorem c1_xor_operator_evaluates_and :
    (opXor (HMap.mk ⟨0, 0, 0, 0⟩ [true]) (HMap.mk ⟨0, 0, 0, 0⟩ [false])).f_get 0 0 =
      .ok false ∧
    (opXor (HMap.mk ⟨0, 0, 0, 0⟩ [true]) (HMap.mk ⟨0, 0, 0, 0⟩ [false])).area =
      HArea.intersectH ⟨0, 0, 0, 0⟩ ⟨0, 0, 0, 0⟩ ∧
    xor true false = true := by
  refine ⟨by decide, by decide, by decide⟩

/-! ## Claim C9: find-and-replace -/

/-- `replace(IMap<T>& map, const T& find, const T& replace)` from
`include/htl/utility.h`: `HRZN_FOREACH_POINT(map, x, y)` — the loops
run `y` from `y1` while `y < y2` and `x` from `x1` while `x < x2` —
and inside, `if (map.at(x, y) == find) map.at(x, y) = replace;`. -/
def replaceU {T : Type} [Inhabited T] [DecidableEq T]
    (m : HMap T) (find rep : T) : HMap T :=
  (exclusivePoints m.area).foldl
    (fun g p => if g.atT p.1 p.2 = find then g.setT p.1 p.2 rep else g) m

/-- C9, evaluated at the failing input: a 1×1 grid whose only cell
`(0,0)` holds the value 1, with `find = 1`, `replace = 9`.  The claim
says the matching cell is overwritten with 9; the code's loops
(`x < x2`, `y < y2` over the inclusive `hArea` domain) visit no cell at
all, and the grid is returned unchanged. -/
theorem c9_replace_misses_cells :
    replaceU (HMap.mk ⟨0, 0, 0, 0⟩ [1] : HMap Int) 1 9 =
      HMap.mk ⟨0, 0, 0, 0⟩ [1] ∧
    (replaceU (HMap.mk ⟨0, 0, 0, 0⟩ [1] : HMap Int) 1 9).at' 0 0 = .ok 1 := by
  refine ⟨by decide, by decide⟩

/-! ## Claim C10: the mutable `HMask::at` writes to a scratch field -/

namespace HMask

/-- The statement `mask.at(x, y) = b` for an `HMask`: the mutable `at`
stores `f_get(x, y)` into `m_dummy` and returns `m_dummy` by reference,
and the assignment then writes `b` into `m_dummy`. -/
def atAssign (m : HMask) (x y : Int) (b : Bool) : Except String HMask :=
  (m.atRef x y).map (fun g => g.assignRef b)

theorem testBit_setWord (old : Nat) {k : Nat} (hk : k < 64) (bv : Bool) :
    (setWord old k bv).testBit k = bv := by
  rw [setWord, Nat.testBit_lor, Nat.testBit_land, compl64, Nat.testBit_xor,
    Nat.testBit_two_pow_self, wordOnes_testBit hk]
  cases bv
  · simp
  · simp

/-- Set/get round-trip on the bit-packed mask: after
`set(x, y, b)`, `f_get(x, y)` reads back `b`. -/
theorem f_get_setT (m : HMask) (x y : Int) (b : Bool)
    (hc : m.area.containsP x y)
    (hlen : m.blocks.length = m.msize)
    (hsz : m.msize = m.area.area / bitInterval + 1) :
    (m.setT x y b).f_get x y = .ok b := by
  have hidx := HArea.idx_lt_area hc
  have hblk : m.area.idx x y / bitInterval < m.blocks.length :=
    block_id_lt hlen hsz hidx
  have hmod : m.area.idx x y % bitInterval < 64 :=
    Nat.mod_lt _ (by decide)
  have hset : m.setT x y b = { m with blocks := m.blocks.set (m.area.idx x y / bitInterval) (setWord (m.blocks.getD (m.area.idx x y / bitInterval) 0) (m.area.idx x y % bitInterval) b) } := by
    simp [setT, set, HArea.f_index, hc, Except.map]
  rw [hset]
  show ((m.area.f_index x y).map _) = .ok b
  rw [HArea.f_index, if_pos hc]
  simp only [Except.map]
  refine congrArg Except.ok ?_
  show decide ((m.blocks.set (m.area.idx x y / bitInterval) (setWord (m.blocks.getD (m.area.idx x y / bitInterval) 0) (m.area.idx x y % bitInterval) b)).getD (m.area.idx x y / bitInterval) 0 &&& 2 ^ (m.area.idx x y % bitInterval) = 2 ^ (m.area.idx x y % bitInterval)) = b
  rw [HMap.getD_set_self _ _ hblk]
  cases b
  · apply decide_eq_false
    intro hcon
    have hbit := land_two_pow_eq_iff.mp hcon
    rw [testBit_setWord _ hmod] at hbit
    exact Bool.false_ne_true hbit
  · exact decide_eq_true (land_two_pow_eq_iff.mpr (testBit_setWord _ hmod true))

end HMask

/-- C10: for the bit-packed boolean grid, the mutable `at(x, y)`
returns a reference to the internal scratch field `m_dummy`: assigning
any boolean through that reference changes only `m_dummy`, and the
value read back by (const) `at` is unchanged at *every* coordinate;
only `set(x, y, v)` changes stored bits, and it does change them. -/
theorem c10_mask_at_scratch_reference (m : HMask) (x y : Int) (b : Bool)
    (hc : m.area.containsP x y)
    (hlen : m.blocks.length = m.msize)
    (hsz : m.msize = m.area.area / bitInterval + 1) :
    m.atAssign x y b = .ok (m.assignRef b) ∧
    (∀ u w : Int, (m.assignRef b).f_get u w = m.f_get u w) ∧
    (m.setT x y b).f_get x y = .ok b := by
  refine ⟨?_, fun u w => rfl, HMask.f_get_setT m x y b hc hlen hsz⟩
  rw [HMask.atAssign, HMask.atRef]
  have : m.f_get x y = .ok (HMask.atT m x y) := by
    rw [HMask.atT]
    rw [HMask.f_get, HArea.f_index, if_pos hc]
    simp [Except.map]
  rw [this]
  rfl

/-- Witness for C10 on a concrete 2×2 mask with bit (0,0) set,
assigning through the reference at (1,0). -/
theorem c10_mask_at_scratch_reference_witness :
    ((HMask.ofArea ⟨0, 0, 1, 1⟩).setT 0 0 true).atAssign 1 0 true =
      .ok (((HMask.ofArea ⟨0, 0, 1, 1⟩).setT 0 0 true).assignRef true) ∧
    (((HMask.ofArea ⟨0, 0, 1, 1⟩).setT 0 0 true).assignRef true).f_get 1 0 =
      ((HMask.ofArea ⟨0, 0, 1, 1⟩).setT 0 0 true).f_get 1 0 ∧
    (((HMask.ofArea ⟨0, 0, 1, 1⟩).setT 0 0 true).setT 1 0 true).f_get 1 0 =
      .ok true := by
  have h := c10_mask_at_scratch_reference
    ((HMask.ofArea ⟨0, 0, 1, 1⟩).setT 0 0 true) 1 0 true
    (by decide) (by decide) (by decide)
  exact ⟨h.1, h.2.1 1 0, h.2.2⟩

/-! ## Claim C2: the cellular-automaton step

`cellularAutomata(IMap<bool>* mask, int birth_rate, bool wrap_position)`
from `include/htl/utility.h`, together with `h_neighborhood8` from
`include/htl/basic_types.h` and `clampPoint` / `wrapPoint` from
`include/htl/utility.h`. -/

/-- `h_neighborhood8` from `include/htl/basic_types.h`: *nine* offsets —
the eight neighbors plus the trailing `(0, 0)` entry for the cell
itself.  `cellularAutomata` range-iterates the whole array. -/
def h_neighborhood8 : List (Int × Int) :=
  [(0, -1), (1, -1), (1, 0), (1, 1), (0, 1), (-1, 1), (-1, 0), (-1, -1), (0, 0)]

/-- `h_neighborhood4` from `include/htl/basic_types.h`: the four
neighbors plus the trailing `(0, 0)` entry. -/
def h_neighborhood4 : List (Int × Int) :=
  [(0, -1), (1, 0), (0, 1), (-1, 0), (0, 0)]

/-- `clampPoint(p, area)` from `include/htl/utility.h`:
`min(max(p.x, x1), x2 - 1)` on each axis. -/
def clampPoint (p : Int × Int) (a : HArea) : Int × Int :=
  (min (max p.1 a.x1) (a.x2 - 1), min (max p.2 a.y1) (a.y2 - 1))

/-- Conversion of a C++ `int` value to `std::size_t` (64-bit unsigned,
reduction modulo `2^64`). -/
def toU64 (i : Int) : Nat := (i % (2 ^ 64 : Int)).toNat

/-- `wrapPoint(p, area)` from `include/htl/utility.h`:
`(p.x % area.width() + area.width()) % area.width()` on each axis.
`p.x` is an `int` but `width()` is a `std::size_t`, so the operands are
converted to 64-bit unsigned values and all arithmetic is unsigned;
the result is not offset by `x1`/`y1`. -/
def wrapPoint (p : Int × Int) (a : HArea) : Int × Int :=
  ((((toU64 p.1 % a.width + a.width) % 2 ^ 64 % a.width : Nat) : Int),
    (((toU64 p.2 % a.height + a.height) % 2 ^ 64 % a.height : Nat) : Int))

/-- The neighbor position computed inside the counting loop:
`wrap_position ? wrapPoint(cell + dir, *mask) : clampPoint(cell + dir, *mask)`. -/
def nbrPos (mask : HMap Bool) (wrap : Bool) (cell dir : Int × Int) : Int × Int :=
  if wrap then wrapPoint (cell.1 + dir.1, cell.2 + dir.2) mask.area
  else clampPoint (cell.1 + dir.1, cell.2 + dir.2) mask.area

/-- The inner counting loop of `cellularAutomata`: for each of the
*nine* entries of `h_neighborhood8` (the trailing `(0,0)` included),
clamp or wrap `cell + dir` and count the live cells read by
`mask->at(pos)` — a read that throws `std::out_of_range` when the
computed position escapes the domain, which `wrapPoint` produces for
any grid not anchored at the origin (it lands in
`[0,width) × [0,height)` without adding back `x1`/`y1`). -/
def countNeighborsE (mask : HMap Bool) (cell : Int × Int) (wrap : Bool) :
    Except String Int :=
  h_neighborhood8.foldlM (fun n dir => do
    let v ← mask.at' (nbrPos mask wrap cell dir).1 (nbrPos mask wrap cell dir).2
    pure (n + if v then 1 else 0)) 0

/-- The count delivered by a successful `countNeighborsE` (0 on the
error path; the theorems below only use it at cells where success has
been proved). -/
def countVal (mask : HMap Bool) (cell : Int × Int) (wrap : Bool) : Int :=
  match countNeighborsE mask cell wrap with
  | .ok n => n
  | .error _ => 0

/-- `cellularAutomata(mask, birth_rate, wrap_position)` from
`include/htl/utility.h`: first pass stores each visited cell's neighbor
count into `HMap<int> neighbor_counts((hArea)*mask, 0)`; second pass
sets each visited cell to `neighbor_counts.at(x, y) >= birth_rate`.
Both passes loop `y` from `y1` while `y < y2` and `x` from `x1` while
`x < x2` — over the inclusive `hArea` domain this skips the last row
and column.  The `set`/`at` calls on cells the loops themselves visit
are in-domain and cannot throw; the neighbor reads of the first pass
can, and such an exception propagates out of `cellularAutomata` before
the mask has been modified. -/
def cellularAutomataE (mask : HMap Bool) (birth : Int) (wrap : Bool) :
    Except String (HMap Bool) := do
  let counts ← (exclusivePoints mask.area).foldlM
    (fun c p => do
      let n ← countNeighborsE mask p wrap
      pure (c.setT p.1 p.2 n))
    (HMap.mk mask.area (List.replicate mask.area.area 0))
  pure (mask.writeAll (exclusivePoints mask.area)
    (fun p => decide (birth ≤ counts.atT p.1 p.2)))

/-- Every neighbor position read for a visited cell is in-domain: for
the clamp policy always (a visited cell implies `x1 < x2` and
`y1 < y2`, and `clampPoint` lands in `[x1, x2-1] × [y1, y2-1]`), and
for the wrap policy when the grid is anchored at the origin. -/
theorem nbrPos_contains (mask : HMap Bool) (wrap : Bool) (cell dir : Int × Int)
    (hx : mask.area.x1 < mask.area.x2) (hy : mask.area.y1 < mask.area.y2)
    (hanchor : wrap = true → mask.area.x1 = 0 ∧ mask.area.y1 = 0) :
    mask.area.containsP (nbrPos mask wrap cell dir).1
      (nbrPos mask wrap cell dir).2 := by
  cases wrap with
  | false =>
      show mask.area.containsP
        (clampPoint (cell.1 + dir.1, cell.2 + dir.2) mask.area).1
        (clampPoint (cell.1 + dir.1, cell.2 + dir.2) mask.area).2
      simp only [clampPoint, HArea.containsP]
      omega
  | true =>
      obtain ⟨hx0, hy0⟩ := hanchor rfl
      have hw : 0 < mask.area.width := HArea.width_pos_of_le (le_of_lt hx)
      have hh : 0 < mask.area.height := HArea.height_pos_of_le (le_of_lt hy)
      have hwx : (toU64 (cell.1 + dir.1) % mask.area.width + mask.area.width) %
          2 ^ 64 % mask.area.width < mask.area.width := Nat.mod_lt _ hw
      have hwy : (toU64 (cell.2 + dir.2) % mask.area.height + mask.area.height) %
          2 ^ 64 % mask.area.height < mask.area.height := Nat.mod_lt _ hh
      show mask.area.containsP
        (wrapPoint (cell.1 + dir.1, cell.2 + dir.2) mask.area).1
        (wrapPoint (cell.1 + dir.1, cell.2 + dir.2) mask.area).2
      simp only [wrapPoint, HArea.containsP, HArea.width, HArea.height] at hwx hwy ⊢
      omega

/-- When every read position of a cell's counting loop is in-domain,
`countNeighborsE` completes with its total value. -/
theorem countNeighborsE_ok (mask : HMap Bool) (cell : Int × Int) (wrap : Bool)
    (h : ∀ dir ∈ h_neighborhood8, mask.area.containsP
      (nbrPos mask wrap cell dir).1 (nbrPos mask wrap cell dir).2) :
    countNeighborsE mask cell wrap = .ok (countVal mask cell wrap) := by
  have hgen : ∀ (L : List (Int × Int)), (∀ dir ∈ L, mask.area.containsP
      (nbrPos mask wrap cell dir).1 (nbrPos mask wrap cell dir).2) →
      ∀ n0 : Int, ∃ n : Int, L.foldlM (fun n dir => do
        let v ← mask.at' (nbrPos mask wrap cell dir).1 (nbrPos mask wrap cell dir).2
        pure (n + if v then 1 else 0)) n0 = .ok n := by
    intro L
    induction L with
    | nil => intro _ n0; exact ⟨n0, rfl⟩
    | cons d rest ih =>
        intro hall n0
        have hc := hall d (List.mem_cons_self d rest)
        obtain ⟨n, hn⟩ := ih (fun d' hd' => hall d' (List.mem_cons_of_mem d hd'))
          (n0 + if mask.contents.getD (mask.area.idx (nbrPos mask wrap cell d).1
            (nbrPos mask wrap cell d).2) default then 1 else 0)
        refine ⟨n, ?_⟩
        rw [List.foldlM_cons]
        have hstep : (do
            let v ← mask.at' (nbrPos mask wrap cell d).1 (nbrPos mask wrap cell d).2
            pure (n0 + if v then 1 else 0) : Except String Int) =
            .ok (n0 + if mask.contents.getD (mask.area.idx
              (nbrPos mask wrap cell d).1 (nbrPos mask wrap cell d).2) default
              then 1 else 0) := by
          rw [HMap.at'_of_contains hc]
          rfl
        rw [hstep]
        exact hn
  have hex : ∃ n : Int, countNeighborsE mask cell wrap = .ok n := by
    unfold countNeighborsE
    exact hgen h_neighborhood8 h 0
  obtain ⟨n, hn⟩ := hex
  simp [countVal, hn]

/-- If every per-point computation succeeds, the first-pass fold over
`Except` completes and equals the pointwise write of the delivered
values. -/
theorem foldlM_setT_ok {T : Type} [Inhabited T] (pts : List (Int × Int))
    (c0 : HMap T) (G : Int × Int → Except String T) (F : Int × Int → T)
    (h : ∀ p ∈ pts, G p = .ok (F p)) :
    pts.foldlM (fun c p => do
      let n ← G p
      pure (c.setT p.1 p.2 n)) c0 = .ok (c0.writeAll pts F) := by
  induction pts generalizing c0 with
  | nil => rfl
  | cons q rest ih =>
      rw [List.foldlM_cons]
      rw [h q (List.mem_cons_self q rest)]
      have hrw : c0.writeAll (q :: rest) F =
          (c0.setT q.1 q.2 (F q)).writeAll rest F := by
        rw [HMap.writeAll, List.foldl_cons, ← HMap.writeAll]
      rw [hrw]
      exact ih (c0.setT q.1 q.2 (F q)) (fun p hp => h p (List.mem_cons_of_mem q hp))

/-- C2 amended: one automaton step completes without raising — for the
clamp policy always, and for the wrap policy on grids anchored at the
origin (elsewhere the first pass's `mask->at` raises `std::out_of_range`
and the step never completes, because `wrapPoint` wraps into
`[0,width) × [0,height)` without adding back `x1`/`y1`) — and performs
the two passes over the cells `(x, y)` with `x1 ≤ x < x2` and
`y1 ≤ y < y2`, all cells of the inclusive domain *except the last row
and column*: it counts, for each such cell, the live cells among the
*nine* offsets of `h_neighborhood8` (the 8-neighborhood plus the cell
itself) under the selected clamp or unsigned-wrap policy, all counts
taken against the pre-step grid, and the second pass sets each visited
cell live iff its recorded count meets or exceeds the birth threshold;
every cell in the last row or column keeps its old value. -/
theorem c2_cellular_automata_two_pass (mask : HMap Bool) (birth : Int)
    (wrap : Bool) (hlen : mask.contents.length = mask.area.area)
    (hanchor : wrap = true → mask.area.x1 = 0 ∧ mask.area.y1 = 0) :
    ∃ g : HMap Bool,
      cellularAutomataE mask birth wrap = .ok g ∧
      g.area = mask.area ∧
      (∀ x y : Int, mask.area.x1 ≤ x → x < mask.area.x2 →
        mask.area.y1 ≤ y → y < mask.area.y2 →
        ∃ n : Int, countNeighborsE mask (x, y) wrap = .ok n ∧
          g.at' x y = .ok (decide (birth ≤ n))) ∧
      (∀ x y : Int, mask.area.containsP x y →
        (x = mask.area.x2 ∨ y = mask.area.y2) →
        g.at' x y = mask.at' x y) := by
  have hsucc : ∀ p ∈ exclusivePoints mask.area,
      countNeighborsE mask p wrap = .ok (countVal mask p wrap) := by
    intro p hp
    have hb := mem_exclusivePoints.mp hp
    refine countNeighborsE_ok mask p wrap (fun dir _ => ?_)
    exact nbrPos_contains mask wrap p dir (by omega) (by omega) hanchor
  have hfold := foldlM_setT_ok (exclusivePoints mask.area)
    (HMap.mk mask.area (List.replicate mask.area.area 0))
    (fun p => countNeighborsE mask p wrap)
    (fun p => countVal mask p wrap) hsucc
  dsimp only at hfold
  have hcarea : ((HMap.mk mask.area (List.replicate mask.area.area (0 : Int))).writeAll
      (exclusivePoints mask.area) (fun q => countVal mask q wrap)).area =
      mask.area := HMap.writeAll_area _ _ _
  refine ⟨mask.writeAll (exclusivePoints mask.area)
    (fun p => decide (birth ≤ ((HMap.mk mask.area
      (List.replicate mask.area.area (0 : Int))).writeAll
      (exclusivePoints mask.area)
      (fun q => countVal mask q wrap)).atT p.1 p.2)), ?_, ?_, ?_, ?_⟩
  · unfold cellularAutomataE
    rw [hfold]
    rfl
  · exact HMap.writeAll_area _ _ _
  · intro x y hx1 hx2 hy1 hy2
    have hc : mask.area.containsP x y := ⟨hx1, by omega, hy1, by omega⟩
    have hmem : ((x, y) : Int × Int) ∈ exclusivePoints mask.area :=
      mem_exclusivePoints.mpr ⟨hx1, hx2, hy1, hy2⟩
    refine ⟨countVal mask (x, y) wrap, hsucc (x, y) hmem, ?_⟩
    have hgarea : (mask.writeAll (exclusivePoints mask.area)
        (fun p => decide (birth ≤ ((HMap.mk mask.area
          (List.replicate mask.area.area (0 : Int))).writeAll
          (exclusivePoints mask.area)
          (fun q => countVal mask q wrap)).atT p.1 p.2))).area = mask.area :=
      HMap.writeAll_area _ _ _
    have hc2 : (mask.writeAll (exclusivePoints mask.area)
        (fun p => decide (birth ≤ ((HMap.mk mask.area
          (List.replicate mask.area.area (0 : Int))).writeAll
          (exclusivePoints mask.area)
          (fun q => countVal mask q wrap)).atT p.1 p.2))).area.containsP x y := by
      rw [hgarea]; exact hc
    rw [HMap.at'_of_contains hc2, hgarea]
    have hkey := HMap.writeAll_getD mask (exclusivePoints mask.area)
      (fun p => decide (birth ≤ ((HMap.mk mask.area
        (List.replicate mask.area.area (0 : Int))).writeAll
        (exclusivePoints mask.area)
        (fun q => countVal mask q wrap)).atT p.1 p.2))
      default (fun q hq => containsP_of_mem_exclusivePoints hq) hlen (x, y) hc
    rw [if_pos hmem] at hkey
    have hcount : ((HMap.mk mask.area
        (List.replicate mask.area.area (0 : Int))).writeAll
        (exclusivePoints mask.area)
        (fun q => countVal mask q wrap)).atT x y =
        countVal mask (x, y) wrap := by
      have hcc : ((HMap.mk mask.area (List.replicate mask.area.area (0 : Int))).writeAll
          (exclusivePoints mask.area) (fun q => countVal mask q wrap)).area.containsP x y := by
        rw [hcarea]; exact hc
      rw [HMap.atT, HMap.at'_of_contains hcc, hcarea]
      have hkey2 := HMap.writeAll_getD
        (HMap.mk mask.area (List.replicate mask.area.area (0 : Int)))
        (exclusivePoints mask.area) (fun q => countVal mask q wrap)
        default (fun q hq => containsP_of_mem_exclusivePoints hq)
        (by simp) (x, y) hc
      rw [if_pos hmem] at hkey2
      exact hkey2
    dsimp only at hkey
    rw [hcount] at hkey
    exact congrArg Except.ok hkey
  · intro x y hc hedge
    have hgarea : (mask.writeAll (exclusivePoints mask.area)
        (fun p => decide (birth ≤ ((HMap.mk mask.area
          (List.replicate mask.area.area (0 : Int))).writeAll
          (exclusivePoints mask.area)
          (fun q => countVal mask q wrap)).atT p.1 p.2))).area = mask.area :=
      HMap.writeAll_area _ _ _
    have hc2 : (mask.writeAll (exclusivePoints mask.area)
        (fun p => decide (birth ≤ ((HMap.mk mask.area
          (List.replicate mask.area.area (0 : Int))).writeAll
          (exclusivePoints mask.area)
          (fun q => countVal mask q wrap)).atT p.1 p.2))).area.containsP x y := by
      rw [hgarea]; exact hc
    have hnmem : ((x, y) : Int × Int) ∉ exclusivePoints mask.area := by
      rw [mem_exclusivePoints]
      obtain ⟨_, h2, _, h4⟩ := hc
      rcases hedge with he | he <;> omega
    rw [HMap.at'_of_contains hc2, hgarea, HMap.at'_of_contains hc]
    have hkey := HMap.writeAll_getD mask (exclusivePoints mask.area)
      (fun p => decide (birth ≤ ((HMap.mk mask.area
        (List.replicate mask.area.area (0 : Int))).writeAll
        (exclusivePoints mask.area)
        (fun q => countVal mask q wrap)).atT p.1 p.2))
      default (fun q hq => containsP_of_mem_exclusivePoints hq) hlen (x, y) hc
    rw [if_neg hnmem] at hkey
    exact congrArg Except.ok hkey

/-- Clamp-to-edge as the specification describes it: clamp each axis to
the domain's inclusive bounds. -/
def clampSpecPoint (p : Int × Int) (a : HArea) : Int × Int :=
  (min (max p.1 a.x1) a.x2, min (max p.2 a.y1) a.y2)

/-- Mathematical wrap-around as the specification describes it. -/
def wrapSpecPoint (p : Int × Int) (a : HArea) : Int × Int :=
  (a.x1 + (p.1 - a.x1) % (a.width : Int), a.y1 + (p.2 - a.y1) % (a.height : Int))

/-- The cellular-automaton step exactly as claim C2 words it (for
comparison with `cellularAutomata`): for *every* cell of the grid,
count the live neighbors among that cell's *8-neighborhood* (the cell
itself excluded) under wrap-around or clamp-to-edge, then in a second
pass set every cell of the grid live iff its recorded count meets or
exceeds the birth threshold. -/
def cellularAutomataSpec (mask : HMap Bool) (birth : Int) (wrap : Bool) : HMap Bool :=
  let counts := (HMap.mk mask.area
      (List.replicate mask.area.area 0)).writeAll (inclusivePoints mask.area)
    (fun cell => ((h_neighborhood8.take 8).map (fun dir =>
      if mask.atT (if wrap then wrapSpecPoint (cell.1 + dir.1, cell.2 + dir.2) mask.area
          else clampSpecPoint (cell.1 + dir.1, cell.2 + dir.2) mask.area).1
        (if wrap then wrapSpecPoint (cell.1 + dir.1, cell.2 + dir.2) mask.area
          else clampSpecPoint (cell.1 + dir.1, cell.2 + dir.2) mask.area).2
      then (1 : Int) else 0)).sum)
  mask.writeAll (inclusivePoints mask.area)
    (fun p => decide (birth ≤ counts.atT p.1 p.2))

/-- C2 counterexample: on the 2×2 all-false grid with birth threshold 0
and the clamp policy, the claim's description sets every cell live
(every neighbor count is 0 ≥ 0), but the code's loops only visit the
single cell `(0,0)` — the completed step leaves cell `(1,1)` dead. -/
theorem c2_cellular_automata_counterexample :
    cellularAutomataE (HMap.mk ⟨0, 0, 1, 1⟩
      [false, false, false, false]) 0 false =
      .ok (HMap.mk ⟨0, 0, 1, 1⟩ [true, false, false, false]) ∧
    (HMap.mk ⟨0, 0, 1, 1⟩ [true, false, false, false] : HMap Bool).at' 1 1 =
      .ok false ∧
    (cellularAutomataSpec (HMap.mk ⟨0, 0, 1, 1⟩
      [false, false, false, false]) 0 false).at' 1 1 = .ok true := by
  refine ⟨by decide, by decide, by decide⟩

/-- Witness for C2 (amended) on a concrete 2×2 grid with one live
cell, clamp policy. -/
theorem c2_cellular_automata_two_pass_witness :
    ∃ g : HMap Bool,
      cellularAutomataE (HMap.mk ⟨0, 0, 1, 1⟩ [true, false, false, false])
        1 false = .ok g ∧
      g.area = HArea.mk 0 0 1 1 ∧
      g.at' 1 1 =
        (HMap.mk ⟨0, 0, 1, 1⟩ [true, false, false, false] : HMap Bool).at' 1 1 := by
  obtain ⟨g, hok, harea, hvis, hun⟩ := c2_cellular_automata_two_pass
    (HMap.mk ⟨0, 0, 1, 1⟩ [true, false, false, false]) 1 false (by decide)
    (fun hw => absurd hw (by decide))
  exact ⟨g, hok, harea, hun 1 1 (by decide) (Or.inl (by decide))⟩

/-! ## Claim C7: flood fill

`floodFill(hPoint first, IMap<T>& region, IMap<bool>& result, bool
edge, bool use8)` from `include/htl/utility.h`, with the neighborhood
arrays from `include/htl/basic_types.h`.  The loop runs `i` from 0 to
3 (or 7 with `use8`), so the trailing `(0,0)` entry of the arrays is
not used. -/

/-- The neighbor offsets actually visited:
`(use8 ? h_neighborhood8 : h_neighborhood4)[i]` for
`i < (use8 ? 8 : 4)`. -/
def floodNeighbors (use8 : Bool) : List (Int × Int) :=
  if use8 then h_neighborhood8.take 8 else h_neighborhood4.take 4

/-- `floodFill` from `include/htl/utility.h`, with an explicit fuel
parameter bounding the C++ call-stack depth (every recursive call is
made into a cell that the caller's `result.set` has just excluded, so
any fuel larger than the cell count reproduces the C++ behaviour;
exhausted fuel would merely stop marking):
`area = intersect(region, result); result.set(first, true);` then for
each neighbor offset in order: if `area.contains(pos)` and
`!result.at(pos)`, recurse when `region.at(pos) == region.at(first)`,
else mark `pos` when `edge` is set. -/
def floodFill {T : Type} [Inhabited T] [DecidableEq T] :
    Nat → Int × Int → HMap T → HMap Bool → Bool → Bool → HMap Bool
  | 0, _, _, result, _, _ => result
  | fuel + 1, first, region, result, edge, use8 =>
    (floodNeighbors use8).foldl (fun res dir =>
      if (HArea.intersectH region.area res.area).containsP
          (first.1 + dir.1) (first.2 + dir.2) ∧
          res.atT (first.1 + dir.1) (first.2 + dir.2) = false then
        if region.atT (first.1 + dir.1) (first.2 + dir.2) =
            region.atT first.1 first.2 then
          floodFill fuel (first.1 + dir.1, first.2 + dir.2) region res edge use8
        else if edge then res.setT (first.1 + dir.1) (first.2 + dir.2) true
        else res
      else res) (result.setT first.1 first.2 true)

/-- The number of `true` cells of a boolean grid. -/
def countTrue (g : HMap Bool) : Nat := g.contents.count true

set_option maxRecDepth 40000 in
/-- C7: on a 5×5 grid holding a single region value everywhere, flood
fill seeded at `(2,2)` with the 4-neighborhood marks exactly 25 cells
true in an all-false result grid over the same domain; changing the one
cell `(2,3)` to a different region value (`edge = false`) reduces the
marked count to exactly 24. -/
theorem c7_flood_fill_counts :
    countTrue (floodFill 30 (2, 2)
      (HMap.mk ⟨0, 0, 4, 4⟩ (List.replicate 25 (1 : Int)))
      (HMap.mk ⟨0, 0, 4, 4⟩ (List.replicate 25 false)) false false) = 25 ∧
    countTrue (floodFill 30 (2, 2)
      (HMap.mk ⟨0, 0, 4, 4⟩ ((List.replicate 25 (1 : Int)).set 17 2))
      (HMap.mk ⟨0, 0, 4, 4⟩ (List.replicate 25 false)) false false) = 24 := by
  refine ⟨by decide, by decide⟩

end Hrzn
